import Mathlib

/-!
Verification development for the `smirc` minimal IRC client (`minirc.go`).

Strings are modelled as `List Char` (`Str`); Go string operations
(`strings.Split`, `strings.SplitN`, `strings.Trim`, `strings.TrimSpace`,
`strings.Contains`, `strings.Join`) are embedded as recursive functions on
`List Char` with matching semantics.  The Go map `map[string]*User` is
modelled as an association list whose reachable states have unique keys.
Partial operations of the Go code (indexing that can panic, such as
`spaceDelimited[1]`, `message[0:4]`, `message[5:]`, `parts[2]`) are
modelled in `Option`: a `none` result stands for a runtime panic
(index out of range) that aborts the process.
-/

abbrev Str := List Char

def chars (s : String) : Str := s.data

/-- Embedding of Go `strings.Split(s, c)` for a one-character separator. -/
def splitOnChar (c : Char) : Str → List Str
  | [] => [[]]
  | x :: xs =>
    if x = c then [] :: splitOnChar c xs
    else
      match splitOnChar c xs with
      | [] => [[x]]
      | y :: ys => (x :: y) :: ys

/-- Embedding of Go `strings.Join(parts, sep)`. -/
def joinSep (sep : Str) : List Str → Str
  | [] => []
  | [x] => x
  | x :: y :: ys => x ++ sep ++ joinSep sep (y :: ys)

/-- Embedding of Go `strings.SplitN(s, c, n)` for a one-character separator:
at most `n` pieces, the last piece is the unsplit remainder. -/
def splitNChar (c : Char) (n : Nat) (s : Str) : List Str :=
  if n = 0 then []
  else
    let all := splitOnChar c s
    if all.length ≤ n then all
    else all.take (n - 1) ++ [joinSep [c] (all.drop (n - 1))]

/-- Drop the longest run of characters satisfying `p` from the front. -/
def dropLeading (p : Char → Bool) : Str → Str
  | [] => []
  | c :: cs => if p c then dropLeading p cs else c :: cs

/-- Drop the longest run of characters satisfying `p` from the back. -/
def dropTrailing (p : Char → Bool) (s : Str) : Str :=
  (dropLeading p s.reverse).reverse

/-- Trim characters satisfying `p` from both ends. -/
def trimBy (p : Char → Bool) (s : Str) : Str :=
  dropTrailing p (dropLeading p s)

/-- Embedding of Go `strings.Trim(s, cutset)`. -/
def goTrim (cutset : Str) (s : Str) : Str :=
  trimBy (fun c => decide (c ∈ cutset)) s

/-- ASCII whitespace, the relevant fragment of Go `unicode.IsSpace`. -/
def isSpaceChar (c : Char) : Bool :=
  c = ' ' || c = '\t' || c = '\n' || c = '\x0b' || c = '\x0c' || c = '\r'

/-- Embedding of Go `strings.TrimSpace`. -/
def trimSpace (s : Str) : Str := trimBy isSpaceChar s

/-- Does `s` start with `needle`? -/
def startsWith : Str → Str → Bool
  | [], _ => true
  | _ :: _, [] => false
  | n :: ns, c :: cs => n = c && startsWith ns cs

/-- Embedding of Go `strings.Contains(s, needle)`. -/
def hasSub (needle : Str) : Str → Bool
  | [] => startsWith needle []
  | c :: cs => startsWith needle (c :: cs) || hasSub needle cs

/-! ## Data model (`IRCConfig`, `User`, `IRCMessage`, `IRC` state) -/

structure IRCConfig where
  server : Str
  port : Nat
  channel : Str
  webServerPortNumber : Nat
deriving DecidableEq

/-- Go struct `User`. -/
structure User where
  nickname : Str
  hostname : Str
  server : Str
  channel : Str
deriving DecidableEq

/-- Go struct `IRCMessage`. -/
structure IRCMessage where
  channel : Str
  userName : Str
  message : Str
deriving DecidableEq

/-- The mutable parts of the Go `IRC` struct: the message slice and the
`map[string]*User`, the latter as an association list. -/
structure IRCState where
  messages : List IRCMessage
  users : List (Str × User)
deriving DecidableEq

def emptyState : IRCState := { messages := [], users := [] }

/-- Delete every binding of key `k` (Go `delete(m, k)`; on reachable states
keys are unique so at most one binding exists). -/
def delKey (k : Str) : List (Str × User) → List (Str × User)
  | [] => []
  | p :: ps => if p.1 = k then delKey k ps else p :: delKey k ps

/-- Go map assignment `m[k] = v`. -/
def mapInsert (k : Str) (v : User) (m : List (Str × User)) : List (Str × User) :=
  delKey k m ++ [(k, v)]

/-- Go map lookup `m[k]`. -/
def lookupKey (k : Str) : List (Str × User) → Option User
  | [] => none
  | p :: ps => if p.1 = k then some p.2 else lookupKey k ps

/-- The cutset `":@+ \n"` used by `AddUserForChannel` and `RemoveUser`. -/
def trimCutset : Str := [':', '@', '+', ' ', '\n']

/-! ## Gateway / store operations, one per Go method -/

def AddIncomingMessage (chatRoom userName message : Str) (st : IRCState) : IRCState :=
  { st with messages := st.messages ++ [⟨chatRoom, userName, message⟩] }

def GetMessagesForChatRoom (channel : Str) (st : IRCState) : Str :=
  joinSep (chars "<br/>")
    ((st.messages.filter (fun m => decide (m.channel = channel))).map
      (fun m => m.userName ++ chars ": " ++ m.message))

def RemoveUser (nickname : Str) (st : IRCState) : IRCState :=
  { st with users := delKey (goTrim trimCutset nickname) st.users }

def AddUserForChannel (user : User) (st : IRCState) : IRCState :=
  let n := goTrim trimCutset user.nickname
  let h := goTrim trimCutset user.hostname
  { st with users := mapInsert n { user with nickname := n, hostname := h } st.users }

/-- The list built and sorted inside `GetUsersForChannel` before joining. -/
def usersForChannel (cfg : IRCConfig) (st : IRCState) : List Str :=
  List.insertionSort (· ≤ ·)
    (((st.users.map Prod.snd).filter (fun u => decide (u.channel = cfg.channel))).map
      (fun u => u.nickname))

def GetUsersForChannel (cfg : IRCConfig) (st : IRCState) : Str :=
  joinSep [','] (usersForChannel cfg st)

/-! ## Session driver: helpers of the read loop, one per Go function -/

def crlf : Str := ['\r', '\n']

/-- Frame written by `irc.Join()`. -/
def joinFrame (channel : Str) : Str := chars "JOIN " ++ channel ++ crlf

/-- Frame written by `irc.Pong(message)`: `"PONG " + message[5:]`.  The Go
slice `message[5:]` panics when `len(message) < 5`, hence `Option`. -/
def pongFrame (message : Str) : Option Str :=
  if message.length < 5 then none
  else some (chars "PONG " ++ message.drop 5 ++ crlf)

/-- Frame written by the periodic roster refresh. -/
def whoFrame (channel : Str) : Str := chars "WHO " ++ channel ++ crlf

/-- Frame written by `sendMessage(conn, channel, message)`. -/
def sendMessage (channel message : Str) : Str :=
  chars "PRIVMSG " ++ channel ++ chars " :" ++ message ++ crlf

/-- Go method `SendMessage`: appends the message to the log under the
`chatRoom` argument with the configured nickname as author, and returns the
frame written to the transport — which always targets `cfg.channel`. -/
def SendMessage (cfg : IRCConfig) (envNickName : Str) (chatRoom message : Str)
    (st : IRCState) : IRCState × Str :=
  ({ st with messages := st.messages ++ [⟨chatRoom, envNickName, message⟩] },
   sendMessage cfg.channel message)

/-- The `PRIVMSG <channel>` branch of the read loop. -/
def privmsgStep (cfg : IRCConfig) (msg : Str) (st : IRCState) : IRCState :=
  if hasSub (chars "PRIVMSG " ++ cfg.channel) msg then
    let parts := splitNChar ':' 3 msg
    if parts.length = 3 then
      let username := (splitOnChar '!' (parts.getD 1 [])).headD []
      AddIncomingMessage cfg.channel username (trimSpace (parts.getD 2 [])) st
    else st
  else st

/-- Go `getUsersFrom353`. -/
def getUsersFrom353 (msg : Str) (st : IRCState) : IRCState :=
  let parts := splitOnChar ' ' msg
  if parts.length < 5 then st
  else
    (parts.drop 5).foldl
      (fun s nick => AddUserForChannel ⟨nick, [], [], parts.getD 4 []⟩ s) st

/-- Go `getUsersFrom352`. -/
def getUsersFrom352 (msg : Str) (st : IRCState) : IRCState :=
  let parts := splitOnChar ' ' msg
  if parts.length < 9 then st
  else AddUserForChannel ⟨parts.getD 7 [], parts.getD 5 [], parts.getD 6 [], parts.getD 3 []⟩ st

/-- Go `getUserFromNewJoin`.  `parts[2]` panics when the split has fewer
than three parts, hence `Option`. -/
def getUserFromNewJoin (msg : Str) (st : IRCState) : Option IRCState :=
  let parts := splitOnChar ' ' msg
  match parts.get? 2 with
  | none => none
  | some p2 =>
    some (AddUserForChannel
      ⟨(splitOnChar '!' (parts.headD [])).headD [], [], [], goTrim [':'] p2⟩ st)

/-- Go `removeNick`. -/
def removeNick (msg : Str) (st : IRCState) : IRCState :=
  let parts := splitOnChar ' ' msg
  RemoveUser ((splitOnChar '!' (parts.headD [])).headD []) st

/-- One iteration of the read loop of `connectToIRC` on the line `msg`
(already read successfully).  Returns the new state and the frames written
to the transport, in write order; `none` models a runtime panic
(`spaceDelimited[1]`, `message[0:4]`, `message[5:]`, or `parts[2]` out of
range).  `whoDue` abstracts the 30-second roster-refresh timer check. -/
def processLine (cfg : IRCConfig) (whoDue : Bool) (msg : Str) (st : IRCState) :
    Option (IRCState × List Str) :=
  let st1 := AddIncomingMessage [] [] msg st
  match (splitNChar ' ' 3 msg).get? 1 with
  | none => none
  | some messageCode =>
    let out001 : List Str := if messageCode = chars "001" then [joinFrame cfg.channel] else []
    if msg.length < 4 then none
    else
      let pingOut : Option (List Str) :=
        if msg.take 4 = chars "PING" then (pongFrame msg).map (fun f => [f])
        else some []
      match pingOut with
      | none => none
      | some outPing =>
        let st2 := privmsgStep cfg msg st1
        let st3 := if messageCode = chars "353" then getUsersFrom353 msg st2 else st2
        let st4 := if messageCode = chars "352" then getUsersFrom352 msg st3 else st3
        let outWho : List Str := if whoDue then [whoFrame cfg.channel] else []
        let joined : Option IRCState :=
          if hasSub (chars " JOIN ") msg then getUserFromNewJoin msg st4 else some st4
        match joined with
        | none => none
        | some st5 =>
          let st6 := if hasSub (chars " PART ") msg then removeNick msg st5 else st5
          some (st6, out001 ++ outPing ++ outWho)

/-! ## Startup model (`connectToIRC` + `main`) -/

/-- Outcome of `connectToIRC`: `log.Fatal` on missing identity variables,
otherwise it returns a connection — `none` standing for the `nil` it
returns when `net.Dial` fails (after printing a diagnostic). -/
inductive ConnectOutcome where
  | fatalExit
  | ret (conn : Option Unit)
deriving DecidableEq

def connectToIRC (envOk dialOk : Bool) : ConnectOutcome :=
  if !envOk then .fatalExit
  else if !dialOk then .ret none
  else .ret (some ())

/-- What `main` ends up doing after `connectToIRC`: terminated, or serving
the polling interface with the connection `connectToIRC` returned. -/
inductive MainOutcome where
  | terminated
  | serving (conn : Option Unit)
deriving DecidableEq

def mainOutcome (envOk dialOk : Bool) : MainOutcome :=
  match connectToIRC envOk dialOk with
  | .fatalExit => .terminated
  | .ret c => .serving c

/-! ## Lock-discipline trace of `SendMessage`

The body of Go `SendMessage` is, in execution order: acquire
`messagesMutex`, append to `messages`, call `sendMessage` (the transport
write), then release the mutex (the deferred `Unlock` runs last). -/

inductive LockAction where
  | lockMessages
  | appendLog
  | netWrite
  | unlockMessages
deriving DecidableEq

def sendMessageTrace : List LockAction :=
  [.lockMessages, .appendLog, .netWrite, .unlockMessages]

/-- Number of `messagesMutex` acquisitions minus releases in a trace. -/
def locksOutstanding (tr : List LockAction) : Int :=
  tr.foldl
    (fun n a =>
      match a with
      | .lockMessages => n + 1
      | .unlockMessages => n - 1
      | _ => n) 0

/-- Invariant of the Go user map: keys are unique and each stored record's
nickname equals its key. -/
def RosterWF (m : List (Str × User)) : Prop :=
  (m.map Prod.fst).Nodup ∧ ∀ p ∈ m, p.2.nickname = p.1

/-- Abstract view of a sequence of Roster Store operations. -/
inductive RosterOp where
  | upsert (u : User)
  | remove (nick : Str)

def applyRosterOp (st : IRCState) : RosterOp → IRCState
  | .upsert u => AddUserForChannel u st
  | .remove n => RemoveUser n st

def applyRosterOps (ops : List RosterOp) : IRCState :=
  ops.foldl applyRosterOp emptyState

/-! ## Lemmas about the string primitives -/

theorem splitOnChar_ne_nil (c : Char) (s : Str) : splitOnChar c s ≠ [] := by
  cases s with
  | nil => simp [splitOnChar]
  | cons x xs =>
    by_cases hx : x = c
    · simp [splitOnChar, hx]
    · cases h : splitOnChar c xs with
      | nil => simp [splitOnChar, hx, h]
      | cons y ys => simp [splitOnChar, hx, h]

theorem length_splitOnChar (c : Char) (s : Str) :
    (splitOnChar c s).length = s.count c + 1 := by
  induction s with
  | nil => simp [splitOnChar]
  | cons x xs ih =>
    by_cases hx : x = c
    · subst hx
      simp [splitOnChar, ih, List.count_cons_self]
    · cases h : splitOnChar c xs with
      | nil => exact absurd h (splitOnChar_ne_nil c xs)
      | cons y ys =>
        rw [h] at ih
        simp only [splitOnChar, if_neg hx, h, List.length_cons] at ih ⊢
        rw [List.count_cons_of_ne (Ne.symm hx)]
        omega

theorem length_splitNChar_le_one (c : Char) (n : Nat) (s : Str) (h : c ∉ s) :
    (splitNChar c n s).length ≤ 1 := by
  have h1 : (splitOnChar c s).length = 1 := by
    rw [length_splitOnChar, List.count_eq_zero_of_not_mem h]
  unfold splitNChar
  split
  · simp
  · simp only
    split
    · omega
    · omega

theorem mem_of_two_le_splitNChar {c : Char} {n : Nat} {s : Str}
    (h : 2 ≤ (splitNChar c n s).length) : c ∈ s := by
  by_contra hc
  have := length_splitNChar_le_one c n s hc
  omega

theorem startsWith_decomp : ∀ (n s : Str), startsWith n s = true → ∃ post, s = n ++ post := by
  intro n
  induction n with
  | nil => exact fun s _ => ⟨s, rfl⟩
  | cons a as ih =>
    intro s h
    cases s with
    | nil => simp [startsWith] at h
    | cons b bs =>
      simp only [startsWith, Bool.and_eq_true, decide_eq_true_eq] at h
      obtain ⟨rfl, h2⟩ := h
      obtain ⟨post, rfl⟩ := ih bs h2
      exact ⟨post, rfl⟩

theorem hasSub_decomp : ∀ (n s : Str), hasSub n s = true → ∃ pre post, s = pre ++ n ++ post := by
  intro n s
  induction s with
  | nil =>
    intro h
    simp only [hasSub] at h
    obtain ⟨post, hp⟩ := startsWith_decomp n [] h
    exact ⟨[], post, by simpa using hp⟩
  | cons c cs ih =>
    intro h
    simp only [hasSub, Bool.or_eq_true] at h
    cases h with
    | inl h =>
      obtain ⟨post, hp⟩ := startsWith_decomp _ _ h
      exact ⟨[], post, by simpa using hp⟩
    | inr h =>
      obtain ⟨pre, post, hp⟩ := ih h
      exact ⟨c :: pre, post, by simp [hp]⟩

theorem count_le_of_hasSub {n s : Str} (c : Char) (h : hasSub n s = true) :
    n.count c ≤ s.count c := by
  obtain ⟨pre, post, rfl⟩ := hasSub_decomp n s h
  simp [List.count_append]
  omega

theorem three_le_splitOnChar_of_hasJoin {msg : Str}
    (h : hasSub (chars " JOIN ") msg = true) : 3 ≤ (splitOnChar ' ' msg).length := by
  have hc : (chars " JOIN ").count ' ' ≤ msg.count ' ' := count_le_of_hasSub ' ' h
  have h2 : (chars " JOIN ").count ' ' = 2 := by decide
  rw [length_splitOnChar]
  omega

theorem length_ge_five_of_ping {msg : Str} (hsp : ' ' ∈ msg)
    (h4 : msg.take 4 = chars "PING") : 5 ≤ msg.length := by
  have hlen : 4 ≤ msg.length := by
    have h := congrArg List.length h4
    rw [List.length_take] at h
    have hP : (chars "PING").length = 4 := by decide
    rw [hP] at h
    omega
  rcases Nat.lt_or_ge msg.length 5 with h5 | h5
  · have hmsg : msg = chars "PING" := by
      rw [← h4]
      exact (List.take_of_length_le (by omega)).symm
    rw [hmsg] at hsp
    exact absurd hsp (by decide)
  · exact h5

/-! ## Lemmas about trimming and the association-list map -/

theorem dropLeading_decomp (p : Char → Bool) (s : Str) :
    ∃ pre, s = pre ++ dropLeading p s ∧ ∀ c ∈ pre, p c = true := by
  induction s with
  | nil => exact ⟨[], rfl, by simp⟩
  | cons x xs ih =>
    by_cases hx : p x = true
    · obtain ⟨pre, hpre, hall⟩ := ih
      refine ⟨x :: pre, ?_, ?_⟩
      · simp [dropLeading, hx, ← hpre]
      · intro c hc
        rcases List.mem_cons.mp hc with rfl | hc
        · exact hx
        · exact hall c hc
    · refine ⟨[], ?_, by simp⟩
      simp [dropLeading, hx]

theorem dropLeading_head (p : Char → Bool) (s : Str) (c : Char) (cs : Str)
    (h : dropLeading p s = c :: cs) : p c = false := by
  induction s with
  | nil => simp [dropLeading] at h
  | cons x xs ih =>
    by_cases hx : p x = true
    · rw [show dropLeading p (x :: xs) = dropLeading p xs by simp [dropLeading, hx]] at h
      exact ih h
    · rw [show dropLeading p (x :: xs) = x :: xs by simp [dropLeading, hx]] at h
      cases h
      exact Bool.not_eq_true _ ▸ hx

theorem dropTrailing_decomp (p : Char → Bool) (s : Str) :
    ∃ post, s = dropTrailing p s ++ post ∧ ∀ c ∈ post, p c = true := by
  obtain ⟨pre, hpre, hall⟩ := dropLeading_decomp p s.reverse
  refine ⟨pre.reverse, ?_, ?_⟩
  · have := congrArg List.reverse hpre
    simpa [dropTrailing] using this
  · intro c hc
    exact hall c (List.mem_reverse.mp hc)

theorem trimBy_decomp (p : Char → Bool) (s : Str) :
    ∃ pre post, s = pre ++ trimBy p s ++ post ∧
      (∀ c ∈ pre, p c = true) ∧ ∀ c ∈ post, p c = true := by
  obtain ⟨pre, hpre, hallpre⟩ := dropLeading_decomp p s
  obtain ⟨post, hpost, hallpost⟩ := dropTrailing_decomp p (dropLeading p s)
  refine ⟨pre, post, ?_, hallpre, hallpost⟩
  rw [trimBy, List.append_assoc, ← hpost, ← hpre]

theorem trimBy_head (p : Char → Bool) (s : Str) (c : Char) (cs : Str)
    (h : trimBy p s = c :: cs) : p c = false := by
  obtain ⟨post, hpost, _⟩ := dropTrailing_decomp p (dropLeading p s)
  rw [trimBy] at h
  rw [h] at hpost
  exact dropLeading_head p s c (cs ++ post) (by simpa using hpost)

theorem trimBy_getLast (p : Char → Bool) (s : Str) (c : Char)
    (h : (trimBy p s).getLast? = some c) : p c = false := by
  rw [trimBy, dropTrailing, List.getLast?_reverse] at h
  cases hh : dropLeading p (dropLeading p s).reverse with
  | nil => rw [hh] at h; simp at h
  | cons d ds =>
    rw [hh] at h
    simp only [List.head?_cons, Option.some.injEq] at h
    rw [h] at hh
    exact dropLeading_head p _ c ds hh

theorem lookupKey_delKey_self (k : Str) (m : List (Str × User)) (v : User) :
    lookupKey k (delKey k m ++ [(k, v)]) = some v := by
  induction m with
  | nil => simp [delKey, lookupKey]
  | cons p ps ih =>
    by_cases hp : p.1 = k
    · simpa [delKey, hp] using ih
    · simpa [delKey, hp, lookupKey] using ih

theorem lookupKey_mapInsert (k : Str) (v : User) (m : List (Str × User)) :
    lookupKey k (mapInsert k v m) = some v :=
  lookupKey_delKey_self k m v

theorem mem_delKey {k : Str} {m : List (Str × User)} {p : Str × User} :
    p ∈ delKey k m ↔ p ∈ m ∧ p.1 ≠ k := by
  induction m with
  | nil => simp [delKey]
  | cons q qs ih =>
    by_cases hq : q.1 = k
    · rw [show delKey k (q :: qs) = delKey k qs by simp [delKey, hq], ih]
      constructor
      · exact fun ⟨hm, hne⟩ => ⟨List.mem_cons_of_mem q hm, hne⟩
      · rintro ⟨hm, hne⟩
        rcases List.mem_cons.mp hm with rfl | hm
        · exact absurd hq hne
        · exact ⟨hm, hne⟩
    · rw [show delKey k (q :: qs) = q :: delKey k qs by simp [delKey, hq]]
      constructor
      · intro hp
        rcases List.mem_cons.mp hp with rfl | hp
        · exact ⟨List.mem_cons_self _ _, hq⟩
        · exact ⟨List.mem_cons_of_mem q (ih.mp hp).1, (ih.mp hp).2⟩
      · rintro ⟨hm, hne⟩
        rcases List.mem_cons.mp hm with rfl | hm
        · exact List.mem_cons_self _ _
        · exact List.mem_cons_of_mem q (ih.mpr ⟨hm, hne⟩)

theorem delKey_sublist (k : Str) (m : List (Str × User)) : List.Sublist (delKey k m) m := by
  induction m with
  | nil => simp [delKey]
  | cons q qs ih =>
    by_cases hq : q.1 = k
    · rw [show delKey k (q :: qs) = delKey k qs by simp [delKey, hq]]
      exact ih.cons q
    · rw [show delKey k (q :: qs) = q :: delKey k qs by simp [delKey, hq]]
      exact ih.cons₂ q

/-! ## Roster invariant: unique keys, record nickname equal to its key -/

theorem rosterWF_nil : RosterWF [] := ⟨List.nodup_nil, by simp⟩

theorem rosterWF_delKey (k : Str) {m : List (Str × User)} (h : RosterWF m) :
    RosterWF (delKey k m) :=
  ⟨h.1.sublist ((delKey_sublist k m).map Prod.fst),
   fun p hp => h.2 p (mem_delKey.mp hp).1⟩

theorem rosterWF_mapInsert (k : Str) (v : User) {m : List (Str × User)}
    (h : RosterWF m) (hv : v.nickname = k) : RosterWF (mapInsert k v m) := by
  constructor
  · rw [mapInsert, List.map_append]
    rw [List.nodup_append]
    refine ⟨(rosterWF_delKey k h).1, List.nodup_singleton k, ?_⟩
    intro a ha hb
    simp only [List.map_cons, List.map_nil, List.mem_singleton] at hb
    subst hb
    obtain ⟨p, hp, hpk⟩ := List.mem_map.mp ha
    exact (mem_delKey.mp hp).2 hpk
  · intro p hp
    rcases List.mem_append.mp hp with hp | hp
    · exact (rosterWF_delKey k h).2 p hp
    · simp only [List.mem_singleton] at hp
      subst hp
      exact hv

theorem rosterWF_addUserForChannel (u : User) {st : IRCState} (h : RosterWF st.users) :
    RosterWF (AddUserForChannel u st).users :=
  rosterWF_mapInsert _ _ h rfl

theorem rosterWF_removeUser (n : Str) {st : IRCState} (h : RosterWF st.users) :
    RosterWF (RemoveUser n st).users :=
  rosterWF_delKey _ h

theorem rosterWF_applyRosterOps (ops : List RosterOp) :
    RosterWF (applyRosterOps ops).users := by
  suffices h : ∀ st : IRCState, RosterWF st.users →
      RosterWF (ops.foldl applyRosterOp st).users from h emptyState rosterWF_nil
  induction ops with
  | nil => exact fun st h => h
  | cons op ops ih =>
    intro st h
    rw [List.foldl_cons]
    refine ih _ ?_
    cases op with
    | upsert u => exact rosterWF_addUserForChannel u h
    | remove n => exact rosterWF_removeUser n h

/-- On a well-formed roster the pre-sort nickname list has no duplicates. -/
theorem nodup_nicknames {st : IRCState} (h : RosterWF st.users) (cfg : IRCConfig) :
    (((st.users.map Prod.snd).filter (fun u => decide (u.channel = cfg.channel))).map
      (fun u => u.nickname)).Nodup := by
  have hsub : List.Sublist
      (((st.users.map Prod.snd).filter (fun u => decide (u.channel = cfg.channel))).map
        (fun u => u.nickname))
      ((st.users.map Prod.snd).map (fun u => u.nickname)) :=
    (List.filter_sublist _).map _
  have heq : (st.users.map Prod.snd).map (fun u => u.nickname) = st.users.map Prod.fst := by
    rw [List.map_map]
    exact List.map_congr_left fun p hp => h.2 p hp
  exact ((heq ▸ h.1).sublist hsub)

theorem mem_usersForChannel {st : IRCState} (h : RosterWF st.users) (cfg : IRCConfig)
    (n : Str) :
    n ∈ usersForChannel cfg st ↔ ∃ u : User, (n, u) ∈ st.users ∧ u.channel = cfg.channel := by
  rw [usersForChannel, List.mem_insertionSort]
  constructor
  · intro hn
    obtain ⟨u, hu, rfl⟩ := List.mem_map.mp hn
    obtain ⟨hu1, hu2⟩ := List.mem_filter.mp hu
    obtain ⟨p, hp, rfl⟩ := List.mem_map.mp hu1
    have hk := h.2 p hp
    refine ⟨p.2, ?_, by simpa using hu2⟩
    rw [hk]
    exact hp
  · rintro ⟨u, hu, hch⟩
    refine List.mem_map.mpr ⟨u, List.mem_filter.mpr ⟨?_, by simpa using hch⟩, ?_⟩
    · exact List.mem_map.mpr ⟨(n, u), hu, rfl⟩
    · exact h.2 (n, u) hu

theorem sorted_usersForChannel (cfg : IRCConfig) (st : IRCState) :
    List.Sorted (· ≤ ·) (usersForChannel cfg st) :=
  List.sorted_insertionSort _ _

theorem nodup_usersForChannel {st : IRCState} (h : RosterWF st.users) (cfg : IRCConfig) :
    (usersForChannel cfg st).Nodup :=
  ((List.perm_insertionSort _ _).nodup_iff).mpr (nodup_nicknames h cfg)

/-! ## Message Log render lemmas -/

theorem joinSep_append_single (sep x : Str) (l : List Str) :
    joinSep sep (l ++ [x]) = if l = [] then x else joinSep sep l ++ sep ++ x := by
  induction l with
  | nil => simp [joinSep]
  | cons y ys ih =>
    cases ys with
    | nil => simp [joinSep]
    | cons z zs =>
      rw [if_neg (by simp)] at ih ⊢
      show joinSep sep (y :: ((z :: zs) ++ [x])) = joinSep sep (y :: z :: zs) ++ sep ++ x
      rw [show joinSep sep (y :: ((z :: zs) ++ [x])) =
            y ++ sep ++ joinSep sep ((z :: zs) ++ [x]) from rfl, ih]
      show y ++ sep ++ (joinSep sep (z :: zs) ++ sep ++ x) =
        (y ++ sep ++ joinSep sep (z :: zs)) ++ sep ++ x
      simp [List.append_assoc]

/-- Appending a line for channel `ch` extends the rendered history of `ch`
at the end, separated by `"<br/>"` when history was nonempty. -/
theorem render_append_same (ch u m : Str) (st : IRCState) :
    GetMessagesForChatRoom ch (AddIncomingMessage ch u m st) =
      (if st.messages.filter (fun x => decide (x.channel = ch)) = [] then []
       else GetMessagesForChatRoom ch st ++ chars "<br/>") ++ (u ++ chars ": " ++ m) := by
  unfold GetMessagesForChatRoom AddIncomingMessage
  rw [List.filter_append, List.map_append,
    show List.filter (fun x => decide (x.channel = ch)) [(⟨ch, u, m⟩ : IRCMessage)] =
      [⟨ch, u, m⟩] by simp,
    show List.map (fun x : IRCMessage => x.userName ++ chars ": " ++ x.message)
      [(⟨ch, u, m⟩ : IRCMessage)] = [u ++ chars ": " ++ m] by simp,
    joinSep_append_single]
  by_cases hp : st.messages.filter (fun x => decide (x.channel = ch)) = []
  · rw [if_pos (by rw [hp]; simp), if_pos hp]
    try simp
  · rw [if_neg (by simpa using hp), if_neg hp]
    try simp [List.append_assoc]

/-- Appending a line for a different channel leaves the rendered history
of `ch` unchanged. -/
theorem render_append_other {ch ch' : Str} (hne : ch' ≠ ch) (u m : Str) (st : IRCState) :
    GetMessagesForChatRoom ch (AddIncomingMessage ch' u m st) =
      GetMessagesForChatRoom ch st := by
  unfold GetMessagesForChatRoom AddIncomingMessage
  rw [List.filter_append]
  simp [List.filter_cons, hne]


/-! ## Claims -/

/-- Claim C1 (counterexample to the claim as stated).  The spec says any
line not matching an expected shape, including a line with fewer than two
space-delimited tokens, is skipped non-fatally; but on the line `"\n"` the
read loop evaluates `spaceDelimited[1]` with only one token present, an
index-out-of-range panic (`none`) that aborts the stream. -/
theorem c1_counterexample :
    processLine ⟨[], 0, chars "#c", 0⟩ false (chars "\n") emptyState = none := by
  decide

/-- Claim C1 (amended).  A line with at least two space-delimited tokens
(under `SplitN(message, " ", 3)`) and at least four characters is always
processed without aborting: every line of that shape — matching a decoder
pattern or not — yields a non-`none` result, so unrecognized shapes are
skipped rather than crashing the loop. -/
theorem processLine_isSome (cfg : IRCConfig) (whoDue : Bool) (st : IRCState) (msg : Str)
    (htok : 2 ≤ (splitNChar ' ' 3 msg).length) (hlen : 4 ≤ msg.length) :
    (processLine cfg whoDue msg st).isSome = true := by
  have hsp : ' ' ∈ msg := mem_of_two_le_splitNChar htok
  obtain ⟨mc, hmc⟩ : ∃ mc, (splitNChar ' ' 3 msg).get? 1 = some mc := by
    cases hh : (splitNChar ' ' 3 msg).get? 1 with
    | none =>
      rw [List.get?_eq_none] at hh
      omega
    | some mc => exact ⟨mc, rfl⟩
  simp only [processLine, hmc]
  rw [if_neg (by omega : ¬ msg.length < 4)]
  by_cases hping : msg.take 4 = chars "PING"
  · have h5 := length_ge_five_of_ping hsp hping
    rw [if_pos hping]
    simp only [pongFrame, if_neg (by omega : ¬ msg.length < 5), Option.map_some]
    by_cases hj : hasSub (chars " JOIN ") msg = true
    · rw [if_pos hj]
      have h3 : 3 ≤ (splitOnChar ' ' msg).length := three_le_splitOnChar_of_hasJoin hj
      obtain ⟨p2, hp2⟩ : ∃ p2, (splitOnChar ' ' msg)[2]? = some p2 := by
        cases hh : (splitOnChar ' ' msg)[2]? with
        | none =>
          rw [List.getElem?_eq_none_iff] at hh
          omega
        | some p2 => exact ⟨p2, rfl⟩
      simp [getUserFromNewJoin, hp2]
    · rw [if_neg hj]
      simp
  · rw [if_neg hping]
    by_cases hj : hasSub (chars " JOIN ") msg = true
    · rw [if_pos hj]
      have h3 : 3 ≤ (splitOnChar ' ' msg).length := three_le_splitOnChar_of_hasJoin hj
      obtain ⟨p2, hp2⟩ : ∃ p2, (splitOnChar ' ' msg)[2]? = some p2 := by
        cases hh : (splitOnChar ' ' msg)[2]? with
        | none =>
          rw [List.getElem?_eq_none_iff] at hh
          omega
        | some p2 => exact ⟨p2, rfl⟩
      simp [getUserFromNewJoin, hp2]
    · rw [if_neg hj]
      simp

/-- Claim C3 (amended).  A line that fails to match any decoder pattern
(not a ping, not numeric reply 001/353/352, no `PRIVMSG <channel>`, no
`" JOIN "`, no `" PART "`) produces no decoded event: the Roster Store is
left unchanged and the Message Log changes only by the unconditional
raw-transcript append of the line under the empty channel tag, which the
read loop performs for every line. -/
theorem processLine_unmatched (cfg : IRCConfig) (whoDue : Bool) (st : IRCState) (msg : Str)
    (mc : Str) (hmc : (splitNChar ' ' 3 msg).get? 1 = some mc)
    (hlen : 4 ≤ msg.length)
    (h001 : mc ≠ chars "001") (h353 : mc ≠ chars "353") (h352 : mc ≠ chars "352")
    (hping : msg.take 4 ≠ chars "PING")
    (hpriv : hasSub (chars "PRIVMSG " ++ cfg.channel) msg = false)
    (hjoin : hasSub (chars " JOIN ") msg = false)
    (hpart : hasSub (chars " PART ") msg = false) :
    processLine cfg whoDue msg st =
      some ({ st with messages := st.messages ++ [⟨[], [], msg⟩] },
            if whoDue then [whoFrame cfg.channel] else []) := by
  simp only [processLine, hmc]
  rw [if_neg (by omega : ¬ msg.length < 4)]
  rw [if_neg hping, if_neg h001, if_neg h353, if_neg h352]
  simp only [privmsgStep, hpriv, hjoin, hpart, Bool.false_eq_true, if_false,
    AddIncomingMessage, List.nil_append]

/-- Witness for C1: the concrete well-formed line `":srv 001 x\n"` is
processed without aborting. -/
theorem processLine_isSome_witness :
    (processLine ⟨[], 0, chars "#c", 0⟩ false (chars ":srv 001 x\n") emptyState).isSome =
      true :=
  processLine_isSome ⟨[], 0, chars "#c", 0⟩ false emptyState (chars ":srv 001 x\n")
    (by decide) (by decide)

/-- Claim C3 (counterexample to the claim as stated).  The line `"ab c\n"`
matches no decoder pattern, yet processing it does mutate the Message Log:
the raw line is appended under the empty channel tag, so the log is not
"completely unchanged". -/
theorem c3_counterexample :
    processLine ⟨[], 0, chars "#c", 0⟩ false (chars "ab c\n") emptyState =
      some ({ messages := [⟨[], [], chars "ab c\n"⟩], users := [] }, []) ∧
    ([⟨[], [], chars "ab c\n"⟩] : List IRCMessage) ≠ emptyState.messages := by
  decide

/-- Witness for C3: the amended statement applied to the concrete
unmatched line `"ab c\n"`. -/
theorem processLine_unmatched_witness :
    processLine ⟨[], 0, chars "#c", 0⟩ false (chars "ab c\n") emptyState =
      some ({ messages := [⟨[], [], chars "ab c\n"⟩], users := [] }, []) :=
  processLine_unmatched ⟨[], 0, chars "#c", 0⟩ false emptyState (chars "ab c\n")
    (chars "c\n") (by decide) (by decide) (by decide) (by decide) (by decide)
    (by decide) (by decide) (by decide) (by decide)

/-- Claim C2 (counterexample to the claim as stated).  With identity
variables present and `net.Dial` failing, the process does not terminate:
`connectToIRC` prints a diagnostic, returns `nil`, and `main` goes on to
serve the polling interface without a connection. -/
theorem c2_counterexample :
    mainOutcome true false ≠ MainOutcome.terminated ∧
    mainOutcome true false = MainOutcome.serving none := by
  decide

/-- Claim C2 (amended).  When opening the transport connection fails (with
identity variables present), `connectToIRC` returns a `nil` connection
rather than exiting, and startup continues: the process serves the polling
interface with no connection.  Only missing identity variables are fatal at
this stage. -/
theorem connect_failure_not_fatal :
    connectToIRC true false = ConnectOutcome.ret none ∧
    mainOutcome true false = MainOutcome.serving none ∧
    mainOutcome false false = MainOutcome.terminated ∧
    mainOutcome false true = MainOutcome.terminated := by
  decide

/-- Claim C4 (counterexample to the claim as stated).  In `SendMessage` the
transport write (index 2 of the trace) happens with the Message Log mutex
still held — the number of outstanding acquisitions before the write is not
zero, so the write is not in a separate critical section. -/
theorem c4_counterexample :
    sendMessageTrace.get? 2 = some LockAction.netWrite ∧
    locksOutstanding (sendMessageTrace.take 2) ≠ 0 := by
  decide

/-- Claim C4 (amended).  The outbound send performs the log append and the
transport write inside one critical section: the write at index 2 runs with
exactly one outstanding acquisition of the Message Log mutex, and the
deferred unlock only follows at index 3 — so a slow transport write does
block concurrent log reads. -/
theorem sendMessage_write_under_lock :
    sendMessageTrace.get? 2 = some LockAction.netWrite ∧
    locksOutstanding (sendMessageTrace.take 2) = 1 ∧
    sendMessageTrace.get? 3 = some LockAction.unlockMessages := by
  decide

/-- Claim C5 (counterexample to the claim as stated).  The cutset is
`":@+ \n"`, not all whitespace: upserting a member whose nickname is
`"\ta\r"` stores it under the key `"\ta\r"` — the tab and carriage return
are not trimmed, so the key is not `"a"`. -/
theorem c5_counterexample :
    (AddUserForChannel ⟨chars "\ta\r", [], [], chars "#c"⟩ emptyState).users.map Prod.fst =
      [chars "\ta\r"] ∧
    chars "\ta\r" ≠ chars "a" := by
  decide

/-- Claim C5 (amended).  Every upsert stores the record under the key
obtained by trimming the characters `':'`, `'@'`, `'+'`, `' '` and `'\n'`
(not `'\r'` or `'\t'`) from both ends of the nickname, with the stored
record carrying that trimmed nickname and the analogously trimmed hostname;
the key neither starts nor ends with a cutset character and is obtained
from the original nickname by removing only cutset characters at the two
ends. -/
theorem addUserForChannel_trims (u : User) (st : IRCState) :
    lookupKey (goTrim trimCutset u.nickname) (AddUserForChannel u st).users =
      some { u with nickname := goTrim trimCutset u.nickname,
                    hostname := goTrim trimCutset u.hostname } ∧
    (∀ c cs, goTrim trimCutset u.nickname = c :: cs → c ∉ trimCutset) ∧
    (∀ c, (goTrim trimCutset u.nickname).getLast? = some c → c ∉ trimCutset) ∧
    ∃ pre post, u.nickname = pre ++ goTrim trimCutset u.nickname ++ post ∧
      (∀ c ∈ pre, c ∈ trimCutset) ∧ ∀ c ∈ post, c ∈ trimCutset := by
  refine ⟨lookupKey_mapInsert _ _ _, ?_, ?_, ?_⟩
  · intro c cs hc
    have h := trimBy_head (fun c => decide (c ∈ trimCutset)) u.nickname c cs hc
    simpa using h
  · intro c hc
    have h := trimBy_getLast (fun c => decide (c ∈ trimCutset)) u.nickname c hc
    simpa using h
  · obtain ⟨pre, post, heq, h1, h2⟩ :=
      trimBy_decomp (fun c => decide (c ∈ trimCutset)) u.nickname
    exact ⟨pre, post, heq, fun c hc => by simpa using h1 c hc,
      fun c hc => by simpa using h2 c hc⟩

/-- Witness for C5: upserting nickname `":a:"` with hostname `"@h+"`
stores key `"a"` and hostname `"h"`, and `'a'` is not a cutset character. -/
theorem addUserForChannel_trims_witness :
    lookupKey (chars "a")
        (AddUserForChannel ⟨chars ":a:", chars "@h+", [], chars "#c"⟩ emptyState).users =
      some ⟨chars "a", chars "h", [], chars "#c"⟩ ∧
    'a' ∉ trimCutset := by
  have h := addUserForChannel_trims ⟨chars ":a:", chars "@h+", [], chars "#c"⟩ emptyState
  have h1 := h.1
  rw [show goTrim trimCutset (chars ":a:") = chars "a" from by decide,
      show goTrim trimCutset (chars "@h+") = chars "h" from by decide] at h1
  exact ⟨h1, h.2.1 'a' [] (by decide)⟩

/-- Claim C6.  Starting from the empty roster, after any sequence of
upsert/remove operations the snapshot for any configured channel is sorted
ascending, duplicate-free, and contains exactly the nicknames currently
stored for that channel. -/
theorem getUsersForChannel_snapshot_spec (ops : List RosterOp) (cfg : IRCConfig) :
    List.Sorted (· ≤ ·) (usersForChannel cfg (applyRosterOps ops)) ∧
    (usersForChannel cfg (applyRosterOps ops)).Nodup ∧
    ∀ n : Str, n ∈ usersForChannel cfg (applyRosterOps ops) ↔
      ∃ u : User, (n, u) ∈ (applyRosterOps ops).users ∧ u.channel = cfg.channel := by
  have hwf := rosterWF_applyRosterOps ops
  exact ⟨sorted_usersForChannel cfg _, nodup_usersForChannel hwf cfg,
    fun n => mem_usersForChannel hwf cfg n⟩

/-- Claim C7.  Decoding `":a!b@c JOIN :#x"` from the empty roster stores
member `"a"` in `"#x"` and the snapshot of `"#x"` is exactly `["a"]`;
decoding `":a!b@c PART :#x"` afterwards empties the snapshot. -/
theorem join_then_part_roundtrip :
    getUserFromNewJoin (chars ":a!b@c JOIN :#x") emptyState =
      some { messages := [], users := [(chars "a", ⟨chars "a", [], [], chars "#x"⟩)] } ∧
    usersForChannel ⟨[], 0, chars "#x", 0⟩
      { messages := [], users := [(chars "a", ⟨chars "a", [], [], chars "#x"⟩)] } =
      [chars "a"] ∧
    usersForChannel ⟨[], 0, chars "#x", 0⟩
      (removeNick (chars ":a!b@c PART :#x")
        { messages := [], users := [(chars "a", ⟨chars "a", [], [], chars "#x"⟩)] }) =
      [] := by
  decide

/-- Claim C8.  Render preserves insertion order: appending a line for the
rendered channel extends the rendered history at the end (separated by
`"<br/>"` when history was nonempty), appending for another channel leaves
it unchanged, and in particular appending `("#x","u1","hi")` then
`("#x","u2","yo")` renders to `"u1: hi<br/>u2: yo"`. -/
theorem render_insertion_order :
    (∀ (st : IRCState) (ch u m : Str),
      GetMessagesForChatRoom ch (AddIncomingMessage ch u m st) =
        (if st.messages.filter (fun x => decide (x.channel = ch)) = [] then []
         else GetMessagesForChatRoom ch st ++ chars "<br/>") ++ (u ++ chars ": " ++ m)) ∧
    (∀ (st : IRCState) (ch ch' u m : Str), ch' ≠ ch →
      GetMessagesForChatRoom ch (AddIncomingMessage ch' u m st) =
        GetMessagesForChatRoom ch st) ∧
    GetMessagesForChatRoom (chars "#x")
      (AddIncomingMessage (chars "#x") (chars "u2") (chars "yo")
        (AddIncomingMessage (chars "#x") (chars "u1") (chars "hi") emptyState)) =
      chars "u1: hi<br/>u2: yo" :=
  ⟨fun st ch u m => render_append_same ch u m st,
   fun st ch ch' u m h => render_append_other h u m st,
   by decide⟩

/-- Witness for C8: appending a line for channel `"#y"` leaves the rendered
history of `"#x"` unchanged. -/
theorem render_insertion_order_witness :
    GetMessagesForChatRoom (chars "#x")
        (AddIncomingMessage (chars "#y") (chars "u3") (chars "zz") emptyState) =
      GetMessagesForChatRoom (chars "#x") emptyState :=
  render_insertion_order.2.1 emptyState (chars "#x") (chars "#y") (chars "u3")
    (chars "zz") (by decide)

/-- Claim C9.  Upserting two members whose trimmed nicknames coincide but
whose hostnames differ leaves exactly the second record under that key:
the lookup returns the second record (trimmed), and any binding of the key
equals the second record — no field of the first survives. -/
theorem upsert_last_write_wins (st : IRCState) (u1 u2 : User)
    (hsame : goTrim trimCutset u1.nickname = goTrim trimCutset u2.nickname)
    (hdiff : u1.hostname ≠ u2.hostname) :
    lookupKey (goTrim trimCutset u2.nickname)
        (AddUserForChannel u2 (AddUserForChannel u1 st)).users =
      some { u2 with nickname := goTrim trimCutset u2.nickname,
                     hostname := goTrim trimCutset u2.hostname } ∧
    ∀ v : User,
      (goTrim trimCutset u2.nickname, v) ∈ (AddUserForChannel u2 (AddUserForChannel u1 st)).users →
      v = { u2 with nickname := goTrim trimCutset u2.nickname,
                    hostname := goTrim trimCutset u2.hostname } := by
  refine ⟨lookupKey_mapInsert _ _ _, ?_⟩
  intro v hv
  rcases List.mem_append.mp hv with hv | hv
  · exact absurd rfl (mem_delKey.mp hv).2
  · simpa using List.mem_singleton.mp hv

/-- Witness for C9: after upserting `("a", hostname "h1")` then
`(":a", hostname "h2")`, the binding for `"a"` is exactly the second
record. -/
theorem upsert_last_write_wins_witness :
    lookupKey (chars "a")
        (AddUserForChannel ⟨chars ":a", chars "h2", chars "s2", chars "#d"⟩
          (AddUserForChannel ⟨chars "a", chars "h1", [], chars "#c"⟩ emptyState)).users =
      some ⟨chars "a", chars "h2", chars "s2", chars "#d"⟩ := by
  have h := upsert_last_write_wins emptyState
    ⟨chars "a", chars "h1", [], chars "#c"⟩
    ⟨chars ":a", chars "h2", chars "s2", chars "#d"⟩ (by decide) (by decide)
  have h1 := h.1
  rw [show goTrim trimCutset (chars ":a") = chars "a" from by decide,
      show goTrim trimCutset (chars "h2") = chars "h2" from by decide] at h1
  exact h1

/-- Claim C10.  `SendMessage` appends the log entry under the channel
passed as argument, authored by the configured nickname, while the wire
frame always targets the configured channel — independent of the channel
argument. -/
theorem sendMessage_log_vs_wire (cfg : IRCConfig) (nick chatRoom message : Str)
    (st : IRCState) :
    (SendMessage cfg nick chatRoom message st).1.messages =
      st.messages ++ [⟨chatRoom, nick, message⟩] ∧
    (SendMessage cfg nick chatRoom message st).1.users = st.users ∧
    (SendMessage cfg nick chatRoom message st).2 =
      chars "PRIVMSG " ++ cfg.channel ++ chars " :" ++ message ++ crlf ∧
    ∀ chatRoom' : Str,
      (SendMessage cfg nick chatRoom' message st).2 =
        (SendMessage cfg nick chatRoom message st).2 :=
  ⟨rfl, rfl, rfl, fun _ => rfl⟩
